import Mathlib

/-!
Verification of the BlenderNEURON activity collection / simplification / transport
pipeline (ForNEURON/blenderneuron/client.py).

Modelling conventions:
* Python floats are modelled as real numbers (exact arithmetic); `float('inf')`
  tolerance values are modelled by taking the simplification tolerance in `EReal`.
* Fallible code is modelled with `Option`: a raised exception (IndexError,
  ValueError from `math.sqrt` on a negative argument, ...) becomes `none`.
* The unbounded Python recursion of `rdp` is modelled with an explicit fuel
  parameter: `rdp fuel points epsilon = none` when the fuel runs out, so
  `∀ fuel, rdp fuel points epsilon = none` states that no recursion depth
  suffices, i.e. the Python function never returns on that input.
* Python strings are modelled as lists of unicode characters (`List Char`);
  `hashlib.md5(...).hexdigest()` is an external library function and is modelled
  as an arbitrary function parameter `md5hex` (the claims only depend on it
  being a deterministic function).
* Python dicts (insertion ordered) are modelled as association lists.
-/

open scoped Classical

/-- Euclidean distance between two 2d points, `BlenderNEURON.distance`
(client.py line 947): `sqrt((a[0] - b[0]) ** 2 + (a[1] - b[1]) ** 2)`. -/
noncomputable def distance (a b : ℝ × ℝ) : ℝ :=
  Real.sqrt ((a.1 - b.1) ^ 2 + (a.2 - b.2) ^ 2)

/-- Perpendicular distance from `point` to the line through `start` and `stop`
(`BlenderNEURON.point_line_distance`, client.py line 954); falls back to the
point distance when the two line endpoints coincide. -/
noncomputable def point_line_distance (point start stop : ℝ × ℝ) : ℝ :=
  if start = stop then distance point start
  else
    |(stop.1 - start.1) * (start.2 - point.2) - (start.1 - point.1) * (stop.2 - start.2)| /
      Real.sqrt ((stop.1 - start.1) ^ 2 + (stop.2 - start.2) ^ 2)

/-- The scan loop of `BlenderNEURON.rdp` (client.py lines 974-980): starting
from `dmax = 0.0, index = 0`, for `i in range(1, len(points) - 1)` compute the
distance of `points[i]` to the line through `points[0]` and `points[-1]` and
remember the largest distance together with its index.  (For fewer than three
points the loop body never runs, so the out-of-range defaults of `getD` are
never used on the indices the loop visits.) -/
noncomputable def rdpScan (points : List (ℝ × ℝ)) : ℝ × ℕ :=
  (List.range' 1 (points.length - 2)).foldl
    (fun acc i =>
      let d := point_line_distance (points.getD i (0, 0)) (points.getD 0 (0, 0))
        (points.getD (points.length - 1) (0, 0))
      if d > acc.1 then (d, i) else acc)
    (0, 0)

/-- Fuel-indexed model of `BlenderNEURON.rdp` (client.py lines 963-985), the
Ramer-Douglas-Peucker simplification.  If the maximal interior deviation
`dmax` satisfies `dmax >= epsilon` the list is split at the maximising index
and both halves are simplified recursively (`rdp(points[:index+1])[:-1] +
rdp(points[index:])`), otherwise the result is `[points[0], points[-1]]`
(an IndexError - modelled as `none` - on an empty input).  `epsilon` lives in
`EReal` because the tolerance is a Python float, which can be `float('inf')`. -/
noncomputable def rdp : ℕ → List (ℝ × ℝ) → EReal → Option (List (ℝ × ℝ))
  | 0, _, _ => none
  | fuel + 1, points, epsilon =>
    let dmax := (rdpScan points).1
    let index := (rdpScan points).2
    if (dmax : EReal) ≥ epsilon then
      (rdp fuel (points.take (index + 1)) epsilon).bind fun left =>
        (rdp fuel (points.drop index) epsilon).map fun right => left.dropLast ++ right
    else
      match points.head?, points.getLast? with
      | some p0, some pn => some [p0, pn]
      | _, _ => none

/-- Statement that the Python `rdp` never returns on `points` with tolerance 0:
no recursion fuel whatsoever makes the fuel-indexed model produce a value. -/
def rdpDivergesAtZero (points : List (ℝ × ℝ)) : Prop :=
  ∀ fuel : ℕ, rdp fuel points 0 = none

/-- Model of `BlenderNEURON.simplify_activity` (client.py lines 835-845):
`reduced = rdp(list(zip(times, activity)), tolerance); return zip(*reduced)`.
The unzip of the (always nonempty when `rdp` returns) reduced pair list is
modelled by the two projections. -/
noncomputable def simplify_activity (fuel : ℕ) (tolerance : EReal)
    (times activity : List ℝ) : Option (List ℝ × List ℝ) :=
  (rdp fuel (times.zip activity) tolerance).map fun reduced =>
    (reduced.map Prod.fst, reduced.map Prod.snd)

/-- The batching loop of `BlenderNEURON.send_activity` (client.py lines
816-832): each record is appended to `payload`; `if len(payload) > 1000` the
payload is dispatched (one `set_segment_activities` call) and reset; after the
loop the remaining payload is always dispatched.  The returned list is the
sequence of dispatched batches in order. -/
def sendBatchesGo {α : Type} : List α → List α → List (List α)
  | [], payload => [payload]
  | part :: rest, payload =>
    let payload1 := payload ++ [part]
    if 1000 < payload1.length then payload1 :: sendBatchesGo rest []
    else sendBatchesGo rest payload1

/-- Batches dispatched by `send_activity` for a list of per-part records,
starting from an empty payload (client.py lines 816-832). -/
def send_activity_batches {α : Type} (parts : List α) : List (List α) :=
  sendBatchesGo parts []

/-- Size bookkeeping of the batching loop: `batchSizes n p` is the list of
batch sizes dispatched when `n` records remain and the payload currently
holds `p` records. -/
def batchSizes : ℕ → ℕ → List ℕ
  | 0, p => [p]
  | n + 1, p => if 1000 < p + 1 then (p + 1) :: batchSizes n 0 else batchSizes n (p + 1)

/-- One `{'name':..., 'times':..., 'activity':...}` record of the
`set_segment_activities` payload (client.py line 825). -/
structure SeriesRecord where
  name : List Char
  times : List ℝ
  activity : List ℝ

/-- The parts of a group's dictionary read by `send_activity` (client.py lines
807-814): `frames_per_ms`, `collection_times` and the `collected_activity`
mapping; the latter is `none` when the `"collected_activity"` key is missing
from the group dictionary. -/
structure SendGroup where
  frames_per_ms : ℝ
  collection_times : List ℝ
  collected_activity : Option (List (List Char × List ℝ))

/-- Model of `BlenderNEURON.send_activity` (client.py lines 799-832).  Iterates over the
groups; `if "collected_activity" not in group: return` exits the whole
function (modelled by producing the empty call list for the remaining groups).
Otherwise each part's series is reduced with `simplify_activity`, its times are
scaled by `frames_per_ms`, and the records are dispatched in batches.  The
result is the list of `set_segment_activities` calls (`none` models an
exception escaping from the reduction of some part). -/
noncomputable def send_activity (fuel : ℕ) (tolerance : EReal) :
    List SendGroup → Option (List (List SeriesRecord))
  | [] => some []
  | g :: rest =>
    match g.collected_activity with
    | none => some []
    | some act =>
      (act.mapM fun part =>
          (simplify_activity fuel tolerance g.collection_times part.2).map fun reduced =>
            SeriesRecord.mk part.1 (reduced.1.map fun t => t * g.frames_per_ms)
              reduced.2).bind fun entries =>
        (send_activity fuel tolerance rest).map fun later =>
          send_activity_batches entries ++ later

/-- Model of `BlenderNEURON.shorten_name_if_needed` (client.py lines 548-567): if the
name is longer than `max_length` characters, keep the first `max_length - 17`
characters and append `"#"` followed by the first 16 characters of the MD5 hex
digest of the full name.  All call sites in client.py use the default
`max_length = 56`. -/
def shorten_name_if_needed (md5hex : List Char → List Char) (name : List Char)
    (max_length : ℕ) : List Char :=
  if max_length < name.length then
    name.take (max_length - 17) ++ ('#' :: (md5hex name).take 16)
  else name

/-- One section coordinate record as produced by `get_cell_coords`
(client.py lines 600-604): interleaved `coords = [x1,y1,z1,x2,y2,z2,...]`,
matching `radii`, and the `"spherical"` marker key (absent = `false`). -/
structure SecCoords where
  name : List Char
  coords : List ℝ
  radii : List ℝ
  spherical : Bool

/-- Python's `math.sqrt`: raises `ValueError` (modelled `none`) on a negative
argument. -/
noncomputable def pysqrt (x : ℝ) : Option ℝ :=
  if x < 0 then none else some (Real.sqrt x)

/-- The argument of the square root computed for one subdivision step of
`spherize_coords` (client.py lines 655-660): with
`step_size = length/(steps+1)`, `dist_from_start = step_size + step*step_size`
and `dist_to_center = abs(radius - dist_from_start)`, the value
`radius**2 - dist_to_center**2`. -/
noncomputable def sphere_step_arg (radius length : ℝ) (steps step : ℕ) : ℝ :=
  radius ^ 2 -
    |radius - (length / ((steps : ℝ) + 1) + (step : ℝ) * (length / ((steps : ℝ) + 1)))| ^ 2

/-- The insertion loop of `spherize_coords` (client.py lines 657-669), run over
the remaining list of step indices.  Each step computes
`step_radius = sqrt(radius**2 - dist_to_center**2)` (failure propagates),
interpolates the position at `dist_from_start / length` along the chord, and
splices the new point into `coords` at `pt_idx*3` and its radius into `radii`
at `pt_idx` (Python slice-assignment and `list.insert` semantics). -/
noncomputable def spherize_steps (x1 y1 z1 range_x range_y range_z radius length : ℝ)
    (steps : ℕ) : List ℕ → SecCoords → Option SecCoords
  | [], sc => some sc
  | step :: rest, sc =>
    (pysqrt (sphere_step_arg radius length steps step)).bind fun step_radius =>
      let step_size := length / ((steps : ℝ) + 1)
      let dist_from_start := step_size + (step : ℝ) * step_size
      let fraction_along := dist_from_start / length
      let pt_idx := step + 1
      spherize_steps x1 y1 z1 range_x range_y range_z radius length steps rest
        (SecCoords.mk sc.name
          (sc.coords.take (pt_idx * 3) ++
            [x1 + range_x * fraction_along, y1 + range_y * fraction_along,
              z1 + range_z * fraction_along] ++ sc.coords.drop (pt_idx * 3))
          (sc.radii.take pt_idx ++ step_radius :: sc.radii.drop pt_idx)
          sc.spherical)

/-- The collapse step of `spherize_coords` (client.py lines 634-637): a record
with more than two points is reduced to its two boundary points
(`radii = [radii[0], radii[-1]]`, `coords = coords[0:3] + coords[-3:]`). -/
noncomputable def spherize_collapse (sc : SecCoords) : SecCoords :=
  if 2 < sc.radii.length then
    SecCoords.mk sc.name
      (sc.coords.take 3 ++ sc.coords.drop (sc.coords.length - 3))
      [sc.radii.headD 0, sc.radii.getLastD 0] sc.spherical
  else sc

/-- Model of `BlenderNEURON.spherize_coords` (client.py lines 621-675).  If the record
has more than two points it is first collapsed to its two boundary points
(`spherize_collapse`); then `steps` intermediate spherical points are inserted
(`spherize_steps`); finally both boundary radii are forced to 0 and the record
is marked `spherical`.  Index accesses (`coords[0]`, `coords[-3]`, `radii[0]`,
...) are modelled with `getD`/`headD`/`getLastD` defaults that are never
consulted on records with at least one 3d point, the only shape the caller
`get_cell_coords` produces. -/
noncomputable def spherize_coords (sc : SecCoords) (length : ℝ) (steps : ℕ) :
    Option SecCoords :=
  let sc1 : SecCoords := spherize_collapse sc
  let x1 := sc1.coords.getD 0 0
  let y1 := sc1.coords.getD 1 0
  let z1 := sc1.coords.getD 2 0
  let x2 := sc1.coords.getD (sc1.coords.length - 3) 0
  let y2 := sc1.coords.getD (sc1.coords.length - 2) 0
  let z2 := sc1.coords.getD (sc1.coords.length - 1) 0
  let radius := sc1.radii.headD 0
  (spherize_steps x1 y1 z1 (x2 - x1) (y2 - y1) (z2 - z1) radius length steps
      (List.range steps) sc1).map fun sc2 =>
    SecCoords.mk sc2.name sc2.coords ((sc2.radii.set 0 0).set (sc2.radii.length - 1) 0) true

/-- A NEURON section as seen by the collection walk: its name, the 3d point
count reported by `h.n3d` before and after `h.define_shape` (`get_coord_count`,
client.py lines 529-546), the string form of its cell (used at the `Cell`
granularity), the `h.arc3d` values, the section length `L`, the sampled
variable as a function of the normalized position (`getattr(section(pos),
variable)`), and the child sections. -/
inductive NSection : Type where
  | mk (name : List Char) (n3d_initial n3d_after : ℕ) (cellName : List Char)
      (arcs : List ℝ) (L : ℝ) (sample : ℝ → ℝ) (children : List NSection)

/-- Model of `BlenderNEURON.get_coord_count` (client.py lines 529-546): the reported 3d
point count, after an on-demand `define_shape` when the initial count is 0. -/
def get_coord_count : NSection → ℕ
  | .mk _ n3d0 n3dA _ _ _ _ _ => if n3d0 = 0 then n3dA else n3d0

/-- The `sample` field of a section. -/
def NSection.sampleFn : NSection → ℝ → ℝ
  | .mk _ _ _ _ _ _ sample _ => sample

/-- The `cellName` field of a section (`str(section.cell())`). -/
def NSection.cellNameFn : NSection → List Char
  | .mk _ _ _ cellName _ _ _ _ => cellName

/-- A group's accumulated activity mapping: an insertion-ordered Python dict
from part name to the list of collected samples. -/
abbrev ActDict := List (List Char × List ℝ)

/-- The pattern `if name not in activity: activity[name] = []` followed by
`activity[name].append(value)` (client.py lines 732-735, 762-765, 790-793). -/
def dict_append : ActDict → List Char → ℝ → ActDict
  | [], k, v => [(k, [v])]
  | (k1, vs) :: rest, k, v =>
    if k1 = k then (k1, vs ++ [v]) :: rest else (k1, vs) :: dict_append rest k v

/-- Keys of the activity dict, in insertion order. -/
def keys (d : ActDict) : List (List Char) := d.map Prod.fst

mutual
/-- Model of `BlenderNEURON.collect_segments_recursive` (client.py lines 737-768): for
`i in range(1, coordCount)` append the value sampled at the normalized
arc-length midpoint `(arc3d(i) + arc3d(i-1))/2/L` under the name
`shorten_name_if_needed(section.name()) + "[" + str(i-1) + "]"`, then recurse
into the children. -/
noncomputable def collect_segments_recursive (md5hex : List Char → List Char) :
    NSection → ActDict → ActDict
  | s@(.mk name _ _ _ arcs L sample children), act =>
    let act1 := (List.range' 1 (get_coord_count s - 1)).foldl
      (fun a i =>
        dict_append a
          (shorten_name_if_needed md5hex name 56 ++ ('[' :: Nat.toDigits 10 (i - 1)) ++ [']'])
          (sample ((arcs.getD i 0 + arcs.getD (i - 1) 0) / 2 / L)))
      act
    collect_segments_children md5hex children act1

/-- The `for child in section.children()` loop of `collect_segments_recursive`
(client.py lines 767-768). -/
noncomputable def collect_segments_children (md5hex : List Char → List Char) :
    List NSection → ActDict → ActDict
  | [], act => act
  | c :: cs, act => collect_segments_children md5hex cs (collect_segments_recursive md5hex c act)
end

mutual
/-- Model of `BlenderNEURON.collect_section` (client.py lines 770-797): append the value
sampled at the section midpoint `section(0.5)` under the shortened section name
(recursive case) or under `str(section.cell())` (non-recursive case), then
recurse into the children when `recursive` (the flag is `True` on that path). -/
noncomputable def collect_section (md5hex : List Char → List Char) :
    NSection → Bool → ActDict → ActDict
  | .mk name _ _ cellName _ _ sample children, recursive, act =>
    let nm := if recursive then shorten_name_if_needed md5hex name 56 else cellName
    let act1 := dict_append act nm (sample 0.5)
    if recursive then collect_section_children md5hex children act1 else act1

/-- The `for child in section.children()` loop of `collect_section`
(client.py lines 795-797). -/
noncomputable def collect_section_children (md5hex : List Char → List Char) :
    List NSection → ActDict → ActDict
  | [], act => act
  | c :: cs, act => collect_section_children md5hex cs (collect_section md5hex c true act)
end

/-- The parts of a group's dictionary read by `collect_group` (client.py lines
688-735): group name, `color_level`, root sections, `collection_times` and
`collected_activity`.  The sampled variable name (`collect_variable`) is folded
into each section's `sample` function. -/
structure CGroup where
  name : List Char
  color_level : List Char
  cells : List NSection
  collection_times : List ℝ
  collected_activity : ActDict

/-- Python's division as used in `collect_group` (client.py line 727): raises
`ZeroDivisionError` (modelled `none`) when the divisor is zero. -/
noncomputable def pydiv (x y : ℝ) : Option ℝ :=
  if y = 0 then none else some (x / y)

/-- Model of `BlenderNEURON.collect_group` (client.py lines 688-735): record the current
time `h.t`, then branch on the group's `color_level`: `Segment` recurses over
every segment of every cell, `Section` over every section midpoint, `Cell`
samples each root's midpoint without recursion, and every other level (the
`Group` default) appends the mean of the root midpoint values under the name
`group_name + "Group"`.  At the `Group` level the mean divides by
`len(group["cells"])`, which raises `ZeroDivisionError` on an empty group
(after the time has already been recorded); the failure is modelled by
returning `none`. -/
noncomputable def collect_group (md5hex : List Char → List Char) (g : CGroup) (t : ℝ) :
    Option CGroup :=
  if g.color_level = "Segment".toList then
    some (CGroup.mk g.name g.color_level g.cells (g.collection_times ++ [t])
      (collect_segments_children md5hex g.cells g.collected_activity))
  else if g.color_level = "Section".toList then
    some (CGroup.mk g.name g.color_level g.cells (g.collection_times ++ [t])
      (collect_section_children md5hex g.cells g.collected_activity))
  else if g.color_level = "Cell".toList then
    some (CGroup.mk g.name g.color_level g.cells (g.collection_times ++ [t])
      (g.cells.foldl (fun act c => collect_section md5hex c false act) g.collected_activity))
  else
    (pydiv ((g.cells.map fun c => c.sampleFn 0.5).sum) ((g.cells.length : ℝ))).map fun value =>
      CGroup.mk g.name g.color_level g.cells (g.collection_times ++ [t])
        (dict_append g.collected_activity (g.name ++ "Group".toList) value)

mutual
/-- The (name, value) pairs appended by `collect_segments_recursive`, in
append order; the append sequence is determined by the section tree alone. -/
noncomputable def segment_pairs (md5hex : List Char → List Char) :
    NSection → List (List Char × ℝ)
  | s@(.mk name _ _ _ arcs L sample children) =>
    ((List.range' 1 (get_coord_count s - 1)).map fun i =>
      (shorten_name_if_needed md5hex name 56 ++ ('[' :: Nat.toDigits 10 (i - 1)) ++ [']'],
        sample ((arcs.getD i 0 + arcs.getD (i - 1) 0) / 2 / L))) ++
      segment_pairs_children md5hex children

/-- The pairs appended for a list of sections at the `Segment` level. -/
noncomputable def segment_pairs_children (md5hex : List Char → List Char) :
    List NSection → List (List Char × ℝ)
  | [] => []
  | c :: cs => segment_pairs md5hex c ++ segment_pairs_children md5hex cs
end

mutual
/-- The (name, value) pairs appended by `collect_section`, in append order. -/
noncomputable def section_pairs (md5hex : List Char → List Char) :
    NSection → Bool → List (List Char × ℝ)
  | .mk name _ _ cellName _ _ sample children, recursive =>
    ((if recursive then shorten_name_if_needed md5hex name 56 else cellName), sample 0.5) ::
      (if recursive then section_pairs_children md5hex children else [])

/-- The pairs appended for a list of sections at the `Section` level. -/
noncomputable def section_pairs_children (md5hex : List Char → List Char) :
    List NSection → List (List Char × ℝ)
  | [] => []
  | c :: cs => section_pairs md5hex c true ++ section_pairs_children md5hex cs
end

/-- The (name, value) pairs appended to `collected_activity` by one invocation
of `collect_group`, for each of the four granularity levels. -/
noncomputable def callback_pairs (md5hex : List Char → List Char) (g : CGroup) :
    List (List Char × ℝ) :=
  if g.color_level = "Segment".toList then segment_pairs_children md5hex g.cells
  else if g.color_level = "Section".toList then section_pairs_children md5hex g.cells
  else if g.color_level = "Cell".toList then
    g.cells.map fun c => (c.cellNameFn, c.sampleFn 0.5)
  else
    [(g.name ++ "Group".toList,
      (g.cells.map fun c => c.sampleFn 0.5).sum / (g.cells.length : ℝ))]

/-- The first component of the `rdp` scan only grows along the fold. -/
theorem rdpScan_fst_nonneg (points : List (ℝ × ℝ)) : 0 ≤ (rdpScan points).1 := by
  unfold rdpScan
  generalize List.range' 1 (points.length - 2) = l
  have main : ∀ (l : List ℕ) (acc : ℝ × ℕ), 0 ≤ acc.1 →
      0 ≤ (l.foldl (fun acc i =>
        let d := point_line_distance (points.getD i (0, 0)) (points.getD 0 (0, 0))
          (points.getD (points.length - 1) (0, 0))
        if d > acc.1 then (d, i) else acc) acc).1 := by
    intro l
    induction l with
    | nil => intro acc h; simpa using h
    | cons i t ih =>
      intro acc h
      simp only [List.foldl_cons]
      apply ih
      split
      · rename_i hd
        exact le_of_lt (lt_of_le_of_lt h hd)
      · exact h
  exact main l (0, 0) le_rfl

/-- Generic fact about the argmax fold: the final index is either the initial
index or one of the visited loop indices. -/
theorem foldl_argmax_snd (f : ℝ × ℕ → ℕ → ℝ × ℕ)
    (hf : ∀ acc i, f acc i = acc ∨ (f acc i).2 = i) :
    ∀ (l : List ℕ) (acc : ℝ × ℕ), (l.foldl f acc).2 = acc.2 ∨ (l.foldl f acc).2 ∈ l := by
  intro l
  induction l with
  | nil => intro acc; left; rfl
  | cons i t ih =>
    intro acc
    rw [List.foldl_cons]
    rcases ih (f acc i) with h1 | h1
    · rcases hf acc i with h2 | h2
      · left; rw [h1, h2]
      · right; rw [h1, h2]; exact List.mem_cons_self i t
    · right; exact List.mem_cons_of_mem _ h1

/-- The index found by the `rdp` scan is a valid index into a nonempty list. -/
theorem rdpScan_snd_lt (points : List (ℝ × ℝ)) (h : points ≠ []) :
    (rdpScan points).2 < points.length := by
  have hlen : 0 < points.length := List.length_pos.mpr h
  have hmem := foldl_argmax_snd
    (fun acc i =>
      let d := point_line_distance (points.getD i (0, 0)) (points.getD 0 (0, 0))
        (points.getD (points.length - 1) (0, 0))
      if d > acc.1 then (d, i) else acc)
    (fun acc i => by
      dsimp only
      split
      · right; rfl
      · left; rfl)
    (List.range' 1 (points.length - 2)) (0, 0)
  unfold rdpScan
  rcases hmem with h1 | h1
  · rw [h1]; exact hlen
  · have h2 := List.mem_range'_1.mp h1
    omega

/-- With a non-positive tolerance the `dmax >= epsilon` branch is always taken,
so the recursion never bottoms out: no recursion fuel produces a result. -/
theorem rdp_nonpos_eps (eps : EReal) (heps : eps ≤ 0) :
    ∀ (fuel : ℕ) (points : List (ℝ × ℝ)), rdp fuel points eps = none := by
  intro fuel
  induction fuel with
  | zero => intro points; rfl
  | succ n ih =>
    intro points
    have hcond : (((rdpScan points).1 : EReal) ≥ eps) :=
      le_trans heps (by exact_mod_cast rdpScan_fst_nonneg points)
    simp only [rdp, if_pos hcond, ih]
    rfl

/-- Taking at least one element preserves the optional head. -/
theorem head?_take_succ {α : Type} (n : ℕ) (l : List α) :
    (l.take (n + 1)).head? = l.head? := by
  cases l <;> rfl

/-- Dropping elements preserves the optional last element as long as something
remains. -/
theorem getLast?_drop_of_ne_nil {α : Type} :
    ∀ (l : List α) (n : ℕ), l.drop n ≠ [] → (l.drop n).getLast? = l.getLast? := by
  intro l
  induction l with
  | nil => intro n h; simp at h
  | cons a t ih =>
    intro n h
    cases n with
    | zero => rfl
    | succ m =>
      rw [List.drop_succ_cons] at h ⊢
      have ht : t ≠ [] := by
        intro he
        rw [he, List.drop_nil] at h
        exact h rfl
      rw [ih m h]
      cases t with
      | nil => exact absurd rfl ht
      | cons b t2 => rw [List.getLast?_cons_cons]

/-- Dropping the last element of a list with at least two elements preserves
the optional head. -/
theorem head?_dropLast_of_two_le {α : Type} :
    ∀ (l : List α), 2 ≤ l.length → l.dropLast.head? = l.head?
  | _ :: _ :: _, _ => rfl
  | [], h => by simp at h
  | [_], h => by simp at h

/-- Structure of every value `rdp` can return: it has at least two points and
keeps the input's first and last elements. -/
theorem rdp_some_shape :
    ∀ (fuel : ℕ) (points : List (ℝ × ℝ)) (eps : EReal) (res : List (ℝ × ℝ)),
      rdp fuel points eps = some res →
      2 ≤ res.length ∧ res.head? = points.head? ∧ res.getLast? = points.getLast? := by
  intro fuel
  induction fuel with
  | zero => intro points eps res h; exact absurd h (by simp [rdp])
  | succ n ih =>
    intro points eps res h
    simp only [rdp] at h
    by_cases hc : (((rdpScan points).1 : EReal) ≥ eps)
    · rw [if_pos hc] at h
      rw [Option.bind_eq_some] at h
      obtain ⟨left, hleft, h⟩ := h
      rw [Option.map_eq_some'] at h
      obtain ⟨right, hright, hres⟩ := h
      obtain ⟨hL2, hLh, hLl⟩ := ih _ _ _ hleft
      obtain ⟨hR2, hRh, hRl⟩ := ih _ _ _ hright
      subst hres
      have hLd_ne : left.dropLast ≠ [] := by
        have : 0 < left.dropLast.length := by
          rw [List.length_dropLast]; omega
        exact List.length_pos.mp this
      have hR_ne : right ≠ [] := by
        have : 0 < right.length := by omega
        exact List.length_pos.mp this
      have hdrop_ne : points.drop (rdpScan points).2 ≠ [] := by
        intro he
        rw [he] at hRh
        cases right with
        | nil => simp at hR2
        | cons b t => simp at hRh
      refine ⟨?_, ?_, ?_⟩
      · rw [List.length_append, List.length_dropLast]
        omega
      · rw [List.head?_append_of_ne_nil _ hLd_ne,
          head?_dropLast_of_two_le left hL2, hLh, head?_take_succ]
      · rw [List.getLast?_append_of_ne_nil _ hR_ne, hRl,
          getLast?_drop_of_ne_nil _ _ hdrop_ne]
    · rw [if_neg hc] at h
      rcases points with _ | ⟨a, t⟩
      · simp at h
      · rcases hpn : (a :: t).getLast? with _ | pn
        · rw [List.getLast?_eq_none_iff] at hpn
          exact absurd hpn (by simp)
        · rw [List.head?_cons, hpn] at h
          have hres : res = [a, pn] := by
            exact (Option.some_inj.mp h).symm
          subst hres
          refine ⟨by simp, by simp, ?_⟩
          simp

/-- With at most two points the scan loop body never runs. -/
theorem rdpScan_short (points : List (ℝ × ℝ)) (h : points.length ≤ 2) :
    rdpScan points = (0, 0) := by
  unfold rdpScan
  have h2 : points.length - 2 = 0 := by omega
  rw [h2]
  rfl

/-- When the branch condition `dmax >= epsilon` fails, `rdp` returns the two
endpoints (or fails on the empty list). -/
theorem rdp_base_eval (fuel : ℕ) (points : List (ℝ × ℝ)) (eps : EReal)
    (hf : fuel ≠ 0) (hcond : ¬ (((rdpScan points).1 : EReal) ≥ eps)) :
    rdp fuel points eps =
      match points.head?, points.getLast? with
      | some p0, some pn => some [p0, pn]
      | _, _ => none := by
  cases fuel with
  | zero => exact absurd rfl hf
  | succ n => simp only [rdp, if_neg hcond]

/-- C4: whenever `rdp` returns a simplified sequence for a nonempty input, the
first element of the result equals the input's first element and the last
element equals the input's last element, for every tolerance. -/
theorem rdp_preserves_endpoints (fuel : ℕ) (points : List (ℝ × ℝ)) (eps : EReal)
    (res : List (ℝ × ℝ)) (_hne : points ≠ []) (h : rdp fuel points eps = some res) :
    res.head? = points.head? ∧ res.getLast? = points.getLast? :=
  ⟨(rdp_some_shape fuel points eps res h).2.1, (rdp_some_shape fuel points eps res h).2.2⟩

/-- Witness for C4: the concrete two-point series `[(0,0),(1,0)]` with
tolerance 1 is returned unchanged and keeps its endpoints. -/
theorem rdp_preserves_endpoints_witness :
    ([((0:ℝ), (0:ℝ)), ((1:ℝ), (0:ℝ))] : List (ℝ × ℝ)).head? =
        ([((0:ℝ), (0:ℝ)), ((1:ℝ), (0:ℝ))] : List (ℝ × ℝ)).head? ∧
      ([((0:ℝ), (0:ℝ)), ((1:ℝ), (0:ℝ))] : List (ℝ × ℝ)).getLast? =
        ([((0:ℝ), (0:ℝ)), ((1:ℝ), (0:ℝ))] : List (ℝ × ℝ)).getLast? := by
  have hcond : ¬ (((rdpScan [((0:ℝ), (0:ℝ)), ((1:ℝ), (0:ℝ))]).1 : EReal) ≥ ((1:ℝ) : EReal)) := by
    rw [rdpScan_short _ (by simp)]
    simp only [ge_iff_le, EReal.coe_le_coe_iff]
    norm_num
  exact rdp_preserves_endpoints 1 _ ((1:ℝ) : EReal) _ (by simp)
    (by rw [rdp_base_eval 1 _ _ (by simp) hcond]; simp)

/-- C2 counterexample: on the length-1 series `[(0,0)]` with tolerance 1 the
code returns the endpoint duplicated, `[(0,0),(0,0)]`, not the input as-is. -/
theorem rdp_singleton_cex :
    rdp 1 [((0:ℝ), (0:ℝ))] ((1:ℝ) : EReal) = some [((0:ℝ), (0:ℝ)), ((0:ℝ), (0:ℝ))] ∧
      some [((0:ℝ), (0:ℝ)), ((0:ℝ), (0:ℝ))] ≠ some ([((0:ℝ), (0:ℝ))] : List (ℝ × ℝ)) := by
  have hcond : ¬ (((rdpScan [((0:ℝ), (0:ℝ))]).1 : EReal) ≥ ((1:ℝ) : EReal)) := by
    rw [rdpScan_short _ (by simp)]
    simp only [ge_iff_le, EReal.coe_le_coe_iff]
    norm_num
  constructor
  · rw [rdp_base_eval 1 _ _ (by simp) hcond]
    simp
  · simp

/-- C2 corrected: for a strictly positive tolerance, a length-2 series is
returned as-is, a length-1 series is returned as its endpoint duplicated, and
the empty series is an error (IndexError on `points[0]`, modelled `none`);
with tolerance at most 0 none of them terminates (see `rdp_nonpos_eps`). -/
theorem rdp_short_series (p q : ℝ × ℝ) (e : ℝ) (fuel : ℕ) (he : 0 < e) :
    rdp (fuel + 1) [p, q] (e : EReal) = some [p, q] ∧
    rdp (fuel + 1) [p] (e : EReal) = some [p, p] ∧
    rdp (fuel + 1) ([] : List (ℝ × ℝ)) (e : EReal) = none := by
  have hc : ∀ points : List (ℝ × ℝ), points.length ≤ 2 →
      ¬ (((rdpScan points).1 : EReal) ≥ (e : EReal)) := by
    intro points hlen
    rw [rdpScan_short points hlen]
    simp only [ge_iff_le, EReal.coe_le_coe_iff]
    exact not_le.mpr he
  refine ⟨?_, ?_, ?_⟩ <;>
    rw [rdp_base_eval _ _ _ (by simp) (hc _ (by simp))] <;> simp

/-- Witness for C2 (corrected form) at `p = (0,0)`, `q = (1,1)`, tolerance 1. -/
theorem rdp_short_series_witness :
    rdp 1 [((0:ℝ), (0:ℝ)), ((1:ℝ), (1:ℝ))] ((1:ℝ) : EReal) =
        some [((0:ℝ), (0:ℝ)), ((1:ℝ), (1:ℝ))] ∧
      rdp 1 [((0:ℝ), (0:ℝ))] ((1:ℝ) : EReal) = some [((0:ℝ), (0:ℝ)), ((0:ℝ), (0:ℝ))] ∧
      rdp 1 ([] : List (ℝ × ℝ)) ((1:ℝ) : EReal) = none :=
  rdp_short_series ((0:ℝ), (0:ℝ)) ((1:ℝ), (1:ℝ)) 1 0 (by norm_num)

/-- C3 counterexample: with tolerance 0 the recursion never returns, already
on the concrete two-point input `[(0,0),(1,1)]`; in particular it does not
return the original points. -/
theorem rdp_zero_diverges_cex : rdpDivergesAtZero [((0:ℝ), (0:ℝ)), ((1:ℝ), (1:ℝ))] :=
  fun fuel => rdp_nonpos_eps 0 le_rfl fuel _

/-- C3 corrected: `rdp(points, 0)` never returns, for every input (the branch
`dmax >= epsilon` is then always taken and the recursion never bottoms out),
while `rdp(points, float('inf'))` returns exactly `[first, last]` for every
nonempty input (and raises IndexError on the empty input). -/
theorem rdp_zero_and_inf (points : List (ℝ × ℝ)) :
    (∀ fuel : ℕ, rdp fuel points 0 = none) ∧
    (∀ fuel : ℕ, rdp (fuel + 1) points ⊤ =
      match points.head?, points.getLast? with
      | some p0, some pn => some [p0, pn]
      | _, _ => none) := by
  constructor
  · exact fun fuel => rdp_nonpos_eps 0 le_rfl fuel points
  · intro fuel
    have hcond : ¬ (((rdpScan points).1 : EReal) ≥ ⊤) := by simp [top_le_iff]
    exact rdp_base_eval (fuel + 1) points ⊤ (by simp) hcond

/-- The dispatched batch sizes only depend on the number of records and the
current payload size. -/
theorem sendBatchesGo_sizes {α : Type} :
    ∀ (l : List α) (payload : List α),
      (sendBatchesGo l payload).map List.length = batchSizes l.length payload.length := by
  intro l
  induction l with
  | nil => intro payload; rfl
  | cons a t ih =>
    intro payload
    simp only [sendBatchesGo, batchSizes, List.length_cons]
    have hlen : (payload ++ [a]).length = payload.length + 1 := by simp
    rw [hlen]
    by_cases h : 1000 < payload.length + 1
    · rw [if_pos h, if_pos h]
      simp only [List.map_cons, hlen, ih]
      rfl
    · rw [if_neg h, if_neg h, ih, hlen]

/-- Every record ends up in exactly one dispatched batch, in order. -/
theorem sendBatchesGo_flatten {α : Type} :
    ∀ (l : List α) (payload : List α), (sendBatchesGo l payload).flatten = payload ++ l := by
  intro l
  induction l with
  | nil => intro payload; simp [sendBatchesGo]
  | cons a t ih =>
    intro payload
    simp only [sendBatchesGo]
    by_cases h : 1000 < (payload ++ [a]).length
    · rw [if_pos h]
      simp only [List.flatten_cons, ih, List.nil_append, List.append_assoc,
        List.singleton_append]
    · rw [if_neg h, ih]
      simp

/-- As long as the running payload holds at most 1000 records, every
dispatched batch holds at most 1001 records. -/
theorem sendBatchesGo_le_1001 {α : Type} :
    ∀ (l : List α) (payload : List α), payload.length ≤ 1000 →
      ∀ b ∈ sendBatchesGo l payload, b.length ≤ 1001 := by
  intro l
  induction l with
  | nil =>
    intro payload hp b hb
    simp only [sendBatchesGo, List.mem_singleton] at hb
    subst hb
    omega
  | cons a t ih =>
    intro payload hp b hb
    simp only [sendBatchesGo] at hb
    by_cases h : 1000 < (payload ++ [a]).length
    · rw [if_pos h] at hb
      rcases List.mem_cons.mp hb with rfl | hb2
      · simp only [List.length_append, List.length_cons, List.length_nil]
        omega
      · exact ih [] (by simp) b hb2
    · rw [if_neg h] at hb
      refine ih (payload ++ [a]) ?_ b hb
      simp only [List.length_append, List.length_cons, List.length_nil] at h ⊢
      omega

set_option maxRecDepth 20000 in
/-- C1 counterexample: 2500 records are dispatched by `send_activity`'s
batching loop as three calls of sizes 1001, 1001 and 498 (the payload is
flushed only when it exceeds 1000 records after an append), not as
1000, 1000, 500. -/
theorem send_activity_batches_2500_cex :
    (send_activity_batches (List.range 2500)).map List.length = [1001, 1001, 498] ∧
      ([1001, 1001, 498] : List ℕ) ≠ [1000, 1000, 500] := by
  constructor
  · rw [send_activity_batches, sendBatchesGo_sizes, List.length_range]
    decide
  · decide

set_option maxRecDepth 20000 in
/-- C1 corrected: the batching loop of `send_activity` dispatches batches of at
most 1001 records, every record appears in the dispatched calls exactly once
and in the original order (the final partial batch is always flushed), and
2500 records are dispatched as three calls of sizes 1001, 1001, 498. -/
theorem send_activity_batches_spec {α : Type} (parts : List α) :
    (send_activity_batches parts).flatten = parts ∧
    (∀ b ∈ send_activity_batches parts, b.length ≤ 1001) ∧
    (send_activity_batches (List.range 2500)).map List.length = [1001, 1001, 498] := by
  refine ⟨?_, ?_, ?_⟩
  · rw [send_activity_batches, sendBatchesGo_flatten, List.nil_append]
  · exact fun b hb => sendBatchesGo_le_1001 parts [] (by simp) b hb
  · rw [send_activity_batches, sendBatchesGo_sizes, List.length_range]
    decide

/-- Witness for C1 (corrected form) at the concrete record list `[0, 1, 2]`,
whose single dispatched batch `[0, 1, 2]` has at most 1001 records. -/
theorem send_activity_batches_spec_witness :
    (send_activity_batches [0, 1, 2]).flatten = [0, 1, 2] ∧
      ([0, 1, 2] : List ℕ).length ≤ 1001 :=
  ⟨(send_activity_batches_spec [0, 1, 2]).1,
    (send_activity_batches_spec [0, 1, 2]).2.1 [0, 1, 2] (by decide)⟩

/-- C8: if a group lacks the `collected_activity` key, `send_activity` returns
from the whole operation at that group: the dispatched calls are exactly those
for the groups before it, and neither the offending group nor any group after
it contributes anything (whatever the trailing groups are). -/
theorem send_activity_early_return (fuel : ℕ) (tolerance : EReal)
    (gs1 gs2 : List SendGroup) (g : SendGroup) (hg : g.collected_activity = none) :
    send_activity fuel tolerance (gs1 ++ g :: gs2) = send_activity fuel tolerance gs1 := by
  induction gs1 with
  | nil =>
    simp only [List.nil_append, send_activity, hg]
  | cons g1 rest ih =>
    simp only [List.cons_append, send_activity]
    cases hact : g1.collected_activity with
    | none => rfl
    | some act =>
      simp only [List.append_eq] at ih ⊢
      rw [ih]

/-- Witness for C8: a single group without the `collected_activity` key makes
`send_activity` dispatch nothing at all. -/
theorem send_activity_early_return_witness :
    send_activity 1 ((1:ℝ) : EReal) ([SendGroup.mk 1 [] none]) =
      send_activity 1 ((1:ℝ) : EReal) [] :=
  send_activity_early_return 1 ((1:ℝ) : EReal) [] [] (SendGroup.mk 1 [] none) rfl

/-- C9: `shorten_name_if_needed` (at the reference maximum length 56) returns
names of at most 56 characters unchanged, never produces more than 56
characters, and is idempotent (already-shortened outputs are returned
unchanged); being a pure function of the name it is deterministic. -/
theorem shorten_name_props (md5hex : List Char → List Char) (name : List Char) :
    (name.length ≤ 56 → shorten_name_if_needed md5hex name 56 = name) ∧
    (shorten_name_if_needed md5hex name 56).length ≤ 56 ∧
    shorten_name_if_needed md5hex (shorten_name_if_needed md5hex name 56) 56 =
      shorten_name_if_needed md5hex name 56 := by
  have hid : ∀ m : List Char, m.length ≤ 56 → shorten_name_if_needed md5hex m 56 = m := by
    intro m hm
    unfold shorten_name_if_needed
    rw [if_neg (by omega)]
  have hlen : (shorten_name_if_needed md5hex name 56).length ≤ 56 := by
    unfold shorten_name_if_needed
    by_cases h : 56 < name.length
    · rw [if_pos h]
      simp only [List.length_append, List.length_cons, List.length_take]
      omega
    · rw [if_neg h]
      omega
  exact ⟨hid name, hlen, hid _ hlen⟩

/-- Witness for C9 at the concrete short name `"soma"` (returned unchanged). -/
theorem shorten_name_props_witness :
    shorten_name_if_needed (fun _ => []) ("soma".toList) 56 = "soma".toList :=
  (shorten_name_props (fun _ => []) ("soma".toList)).1 (by decide)

/-- Splicing at a position at least 3 leaves the first three entries alone. -/
theorem splice_take_three (C B : List ℝ) (pos : ℕ) (h3 : 3 ≤ pos) (hp : pos ≤ C.length) :
    (C.take pos ++ B ++ C.drop pos).take 3 = C.take 3 := by
  rw [List.take_append_of_le_length (show (3:ℕ) ≤ (C.take pos ++ B).length from by
      rw [List.length_append, List.length_take]; omega),
    List.take_append_of_le_length (show (3:ℕ) ≤ (C.take pos).length from by
      rw [List.length_take]; omega),
    List.take_take]
  congr 1
  omega

/-- Splicing three values right before the final three entries leaves the
final three entries alone. -/
theorem splice_drop_three (C B : List ℝ) (pos : ℕ) (hp : pos + 3 = C.length)
    (hB : B.length = 3) :
    (C.take pos ++ B ++ C.drop pos).drop ((C.take pos ++ B ++ C.drop pos).length - 3) =
      C.drop (C.length - 3) := by
  have hAB : (C.take pos ++ B).length = C.length := by
    rw [List.length_append, List.length_take]; omega
  have hLL : (C.take pos ++ B ++ C.drop pos).length = C.length + 3 := by
    rw [List.length_append, hAB, List.length_drop]; omega
  rw [hLL, show C.length + 3 - 3 = (C.take pos ++ B).length + 0 from by rw [hAB]; omega,
    List.drop_append, List.drop_zero]
  congr 1
  omega

/-- If some step of the insertion loop has a negative square-root argument, the
whole loop fails (the `ValueError` from `math.sqrt` propagates). -/
theorem spherize_steps_fail (x1 y1 z1 rx ry rz radius len : ℝ) (steps : ℕ) :
    ∀ (l : List ℕ) (sc : SecCoords),
      (∃ s ∈ l, sphere_step_arg radius len steps s < 0) →
      spherize_steps x1 y1 z1 rx ry rz radius len steps l sc = none := by
  intro l
  induction l with
  | nil => intro sc h; simp at h
  | cons s0 rest ih =>
    intro sc h
    by_cases hneg : sphere_step_arg radius len steps s0 < 0
    · have hps : pysqrt (sphere_step_arg radius len steps s0) = none := if_pos hneg
      simp only [spherize_steps, hps, Option.none_bind]
    · rcases h with ⟨s, hs, hlt⟩
      rcases List.mem_cons.mp hs with rfl | hs2
      · exact absurd hlt hneg
      · have hps : pysqrt (sphere_step_arg radius len steps s0) =
            some (Real.sqrt (sphere_step_arg radius len steps s0)) := if_neg hneg
        simp only [spherize_steps, hps, Option.some_bind]
        exact ih _ ⟨s, hs2, hlt⟩

/-- If every step of the insertion loop has a nonnegative square-root argument,
the loop succeeds; each processed step adds one radius and three coordinates. -/
theorem spherize_steps_ok (x1 y1 z1 rx ry rz radius len : ℝ) (steps : ℕ) :
    ∀ (l : List ℕ) (sc : SecCoords),
      (∀ s ∈ l, 0 ≤ sphere_step_arg radius len steps s) →
      ∃ sc2, spherize_steps x1 y1 z1 rx ry rz radius len steps l sc = some sc2 ∧
        sc2.radii.length = sc.radii.length + l.length ∧
        sc2.coords.length = sc.coords.length + 3 * l.length := by
  intro l
  induction l with
  | nil => intro sc _; exact ⟨sc, rfl, by simp, by simp⟩
  | cons s0 rest ih =>
    intro sc h
    have h0 : 0 ≤ sphere_step_arg radius len steps s0 := h s0 (List.mem_cons_self s0 rest)
    have hps : pysqrt (sphere_step_arg radius len steps s0) =
        some (Real.sqrt (sphere_step_arg radius len steps s0)) := if_neg (not_lt.mpr h0)
    simp only [spherize_steps, hps, Option.some_bind]
    obtain ⟨sc2, h1, h2, h3⟩ := ih _ (fun s hs => h s (List.mem_cons_of_mem _ hs))
    refine ⟨sc2, h1, ?_, ?_⟩
    · rw [h2]
      dsimp only
      simp only [List.length_append, List.length_cons, List.length_take, List.length_drop]
      omega
    · rw [h3]
      dsimp only
      simp only [List.length_append, List.length_cons, List.length_take, List.length_drop,
        List.length_nil]
      omega

/-- Processing the step indices `k, k+1, ...` in order on a record with
`6 + 3k` coordinates keeps the first three and last three coordinates intact
(every insertion happens strictly between them). -/
theorem spherize_steps_ends (x1 y1 z1 rx ry rz radius len : ℝ) (steps : ℕ) :
    ∀ (m k : ℕ) (sc sc2 : SecCoords),
      spherize_steps x1 y1 z1 rx ry rz radius len steps (List.range' k m) sc = some sc2 →
      sc.coords.length = 6 + 3 * k →
      sc2.coords.length = 6 + 3 * (k + m) ∧
      sc2.coords.take 3 = sc.coords.take 3 ∧
      sc2.coords.drop (sc2.coords.length - 3) = sc.coords.drop (sc.coords.length - 3) := by
  intro m
  induction m with
  | zero =>
    intro k sc sc2 h hlen
    rw [show List.range' k 0 = [] from rfl] at h
    simp only [spherize_steps, Option.some_inj] at h
    subst h
    exact ⟨by omega, rfl, rfl⟩
  | succ m ih =>
    intro k sc sc2 h hlen
    rw [List.range'_succ] at h
    by_cases hneg : sphere_step_arg radius len steps k < 0
    · have hps : pysqrt (sphere_step_arg radius len steps k) = none := if_pos hneg
      simp only [spherize_steps, hps, Option.none_bind] at h
      exact absurd h (by simp)
    · have hps : pysqrt (sphere_step_arg radius len steps k) =
          some (Real.sqrt (sphere_step_arg radius len steps k)) := if_neg hneg
      simp only [spherize_steps, hps, Option.some_bind] at h
      obtain ⟨hL, hT, hD⟩ := ih (k + 1) _ sc2 h (by
        dsimp only
        simp only [List.length_append, List.length_cons, List.length_take, List.length_drop,
          List.length_nil]
        omega)
      dsimp only at hL hT hD
      refine ⟨by omega, ?_, ?_⟩
      · rw [hT, splice_take_three]
        · omega
        · omega
      · rw [hD, splice_drop_three]
        · omega
        · simp

/-- The square of the absolute value in the step argument can be dropped. -/
theorem sphere_step_arg_sq (radius len : ℝ) (steps s : ℕ) :
    sphere_step_arg radius len steps s =
      radius ^ 2 -
        (radius - (len / ((steps : ℝ) + 1) + (s : ℝ) * (len / ((steps : ℝ) + 1)))) ^ 2 := by
  rw [sphere_step_arg, sq_abs]

/-- Shape of the collapse step on a well-formed record with at least two
points: exactly two radii and six coordinates remain, the first radius and the
boundary coordinate triples are preserved. -/
theorem spherize_collapse_shape (sc : SecCoords) (h2 : 2 ≤ sc.radii.length)
    (hc : sc.coords.length = 3 * sc.radii.length) :
    (spherize_collapse sc).radii.length = 2 ∧
    (spherize_collapse sc).coords.length = 6 ∧
    (spherize_collapse sc).radii.headD 0 = sc.radii.headD 0 ∧
    (spherize_collapse sc).coords.take 3 = sc.coords.take 3 ∧
    (spherize_collapse sc).coords.drop ((spherize_collapse sc).coords.length - 3) =
      sc.coords.drop (sc.coords.length - 3) := by
  unfold spherize_collapse
  by_cases hb : 2 < sc.radii.length
  · rw [if_pos hb]
    dsimp only
    have h9 : 9 ≤ sc.coords.length := by omega
    have htk : (sc.coords.take 3).length = 3 := by rw [List.length_take]; omega
    have hlen6 : (sc.coords.take 3 ++ sc.coords.drop (sc.coords.length - 3)).length = 6 := by
      rw [List.length_append, htk, List.length_drop]
      omega
    refine ⟨rfl, hlen6, by simp, ?_, ?_⟩
    · rw [List.take_append_of_le_length (by omega), List.take_take]
      congr 1
    · rw [hlen6, show (6:ℕ) - 3 = (sc.coords.take 3).length + 0 from by rw [htk],
        List.drop_append, List.drop_zero]
  · rw [if_neg hb]
    exact ⟨by omega, by omega, rfl, rfl, rfl⟩

/-- C6 counterexample: on the degenerate record with boundary radius 0 but
positive length (first 3d point radius 0, section length 8), `spherize_coords`
raises `ValueError` from `math.sqrt` (modelled `none`); it does not fall back
to the non-spherical path. -/
theorem spherize_unguarded_cex :
    spherize_coords (SecCoords.mk [] [0, 0, 0, 8, 0, 0] [0, 0] false) 8 7 = none := by
  simp only [spherize_coords]
  rw [spherize_steps_fail]
  · rfl
  · refine ⟨0, by simp, ?_⟩
    rw [sphere_step_arg_sq]
    norm_num [spherize_collapse]

/-- C6 corrected: the step-radius computation `sqrt(radius**2 -
dist_to_center**2)` is NOT guarded: whenever some subdivision step has
`dist_to_center > radius` (negative square-root argument), `spherize_coords`
fails with an exception (modelled `none`) instead of soft-failing to the
non-spherical path. -/
theorem spherize_not_guarded (sc : SecCoords) (len : ℝ) (steps : ℕ)
    (h : ∃ s, s < steps ∧
      sphere_step_arg ((spherize_collapse sc).radii.headD 0) len steps s < 0) :
    spherize_coords sc len steps = none := by
  obtain ⟨s, hs, hneg⟩ := h
  simp only [spherize_coords]
  rw [spherize_steps_fail]
  · rfl
  · exact ⟨s, List.mem_range.mpr hs, hneg⟩

/-- Witness for C6 (corrected form): a record whose first radius is 1 but
whose length is 16 has a failing step, so `spherize_coords` errors out. -/
theorem spherize_not_guarded_witness :
    spherize_coords (SecCoords.mk [] [0, 0, 0, 16, 0, 0] [1, 1] false) 16 7 = none := by
  refine spherize_not_guarded (SecCoords.mk [] [0, 0, 0, 16, 0, 0] [1, 1] false) 16 7
    ⟨1, by norm_num, ?_⟩
  rw [sphere_step_arg_sq]
  norm_num [spherize_collapse]

/-- Setting an entry at a positive index leaves the head alone. -/
theorem head?_set_of_pos {α : Type} (l : List α) (a : α) (n : ℕ) (hn : 0 < n) :
    (l.set n a).head? = l.head? := by
  cases l with
  | nil => rfl
  | cons b t =>
    cases n with
    | zero => omega
    | succ m => rfl

/-- Setting the head of a nonempty list. -/
theorem head?_set_zero {α : Type} (l : List α) (a : α) (h : l ≠ []) :
    (l.set 0 a).head? = some a := by
  cases l with
  | nil => exact absurd rfl h
  | cons b t => rfl

/-- The optional last element ignores a cons onto a nonempty list. -/
theorem getLast?_cons_of_ne_nil {α : Type} (b : α) (l : List α) (h : l ≠ []) :
    (b :: l).getLast? = l.getLast? := by
  cases l with
  | nil => exact absurd rfl h
  | cons c t => rw [List.getLast?_cons_cons]

/-- Setting the final entry of a nonempty list makes it the last element. -/
theorem getLast?_set_last {α : Type} :
    ∀ (l : List α) (a : α), l ≠ [] → (l.set (l.length - 1) a).getLast? = some a := by
  intro l
  induction l with
  | nil => intro a h; exact absurd rfl h
  | cons b t ih =>
    intro a _
    cases t with
    | nil => rfl
    | cons c t2 =>
      rw [show (b :: c :: t2).length - 1 = t2.length + 1 from by simp,
        List.set_cons_succ b (c :: t2) t2.length a]
      rw [getLast?_cons_of_ne_nil]
      · have h3 := ih a (by simp)
        rw [show (c :: t2).length - 1 = t2.length from by simp] at h3
        exact h3
      · intro he
        have h4 := congrArg List.length he
        rw [List.length_set] at h4
        simp at h4

/-- C7 counterexample: a well-formed two-point record whose first radius (0)
is smaller than required by its length (4) makes `spherize_coords` fail:
no output record is produced at all, hence none with the claimed shape. -/
theorem spherize_shape_cex :
    spherize_coords (SecCoords.mk [] [0, 0, 0, 4, 0, 0] [0, 1] false) 4 7 = none := by
  simp only [spherize_coords]
  rw [spherize_steps_fail]
  · rfl
  · refine ⟨0, by simp, ?_⟩
    rw [sphere_step_arg_sq]
    norm_num [spherize_collapse]

/-- C7 corrected: for every record with at least two 3d points (well-formed
`coords`/`radii` lengths) on which no subdivision step has a negative
square-root argument, `spherize_coords` succeeds, the first and last output
radii are exactly 0, and the output has `steps + 2` points (radii) -
`3 * (steps + 2)` interleaved coordinates - which is 9 points at the default
`steps = 7`. -/
theorem spherize_success_shape (sc : SecCoords) (len : ℝ) (steps : ℕ)
    (h2 : 2 ≤ sc.radii.length) (hc : sc.coords.length = 3 * sc.radii.length)
    (hok : ∀ s, s < steps →
      0 ≤ sphere_step_arg ((spherize_collapse sc).radii.headD 0) len steps s) :
    ∃ r, spherize_coords sc len steps = some r ∧
      r.radii.head? = some 0 ∧ r.radii.getLast? = some 0 ∧
      r.radii.length = steps + 2 ∧ r.coords.length = 3 * (steps + 2) := by
  obtain ⟨hr2, hc6, hrad, hT0, hD0⟩ := spherize_collapse_shape sc h2 hc
  simp only [spherize_coords]
  obtain ⟨sc2, hsc2, hrl, hcl⟩ := spherize_steps_ok
    ((spherize_collapse sc).coords.getD 0 0) ((spherize_collapse sc).coords.getD 1 0)
    ((spherize_collapse sc).coords.getD 2 0)
    ((spherize_collapse sc).coords.getD ((spherize_collapse sc).coords.length - 3) 0 -
      (spherize_collapse sc).coords.getD 0 0)
    ((spherize_collapse sc).coords.getD ((spherize_collapse sc).coords.length - 2) 0 -
      (spherize_collapse sc).coords.getD 1 0)
    ((spherize_collapse sc).coords.getD ((spherize_collapse sc).coords.length - 1) 0 -
      (spherize_collapse sc).coords.getD 2 0)
    ((spherize_collapse sc).radii.headD 0) len steps (List.range steps) (spherize_collapse sc)
    (fun s hs => hok s (List.mem_range.mp hs))
  rw [hsc2, Option.map_some']
  have hrl2 : sc2.radii.length = steps + 2 := by
    rw [hrl, hr2, List.length_range]
    omega
  have hne1 : sc2.radii ≠ [] := by
    intro he
    rw [he] at hrl2
    simp at hrl2
  have hne2 : sc2.radii.set 0 0 ≠ [] := by
    intro he
    have h4 := congrArg List.length he
    rw [List.length_set] at h4
    rw [hrl2] at h4
    simp at h4
  refine ⟨_, rfl, ?_, ?_, ?_, ?_⟩
  · dsimp only
    rw [head?_set_of_pos _ _ _ (by omega), head?_set_zero _ _ hne1]
  · dsimp only
    rw [show sc2.radii.length - 1 = (sc2.radii.set 0 0).length - 1 from by rw [List.length_set],
      getLast?_set_last _ _ hne2]
  · dsimp only
    rw [List.length_set, List.length_set, hrl2]
  · dsimp only
    rw [hcl, hc6, List.length_range]
    omega

/-- Witness for C7 (corrected form): the two-point soma-like record of radius 1
and length 2 spherizes into a record with 9 radii, 27 coordinates, and zero
boundary radii. -/
theorem spherize_success_shape_witness :
    ∃ r, spherize_coords (SecCoords.mk [] [0, 0, 0, 2, 0, 0] [1, 1] false) 2 7 = some r ∧
      r.radii.head? = some 0 ∧ r.radii.getLast? = some 0 ∧
      r.radii.length = 9 ∧ r.coords.length = 27 := by
  refine spherize_success_shape (SecCoords.mk [] [0, 0, 0, 2, 0, 0] [1, 1] false) 2 7
    (by simp) (by simp) ?_
  intro s hs
  rw [sphere_step_arg_sq]
  have hrad : (spherize_collapse (SecCoords.mk [] [0, 0, 0, 2, 0, 0] [1, 1] false)).radii.headD 0
      = 1 := by
    norm_num [spherize_collapse]
  rw [hrad]
  interval_cases s <;> norm_num

/-- C10: whenever `spherize_coords` produces a record from a well-formed input
with at least two 3d points, the first and last coordinate triples of the
output equal those of the input: the sphere stays anchored at the original
section endpoints, only radii and inserted intermediate points differ. -/
theorem spherize_preserves_end_coords (sc : SecCoords) (len : ℝ) (steps : ℕ)
    (r : SecCoords) (h2 : 2 ≤ sc.radii.length) (hc : sc.coords.length = 3 * sc.radii.length)
    (h : spherize_coords sc len steps = some r) :
    r.coords.take 3 = sc.coords.take 3 ∧
    r.coords.drop (r.coords.length - 3) = sc.coords.drop (sc.coords.length - 3) := by
  obtain ⟨hr2, hc6, hrad, hT0, hD0⟩ := spherize_collapse_shape sc h2 hc
  simp only [spherize_coords] at h
  rw [Option.map_eq_some'] at h
  obtain ⟨sc2, hsc2, hfr⟩ := h
  rw [List.range_eq_range' steps] at hsc2
  obtain ⟨hL, hT, hD⟩ := spherize_steps_ends _ _ _ _ _ _ _ _ _ steps 0 (spherize_collapse sc)
    sc2 hsc2 (by rw [hc6])
  subst hfr
  dsimp only
  exact ⟨by rw [hT, hT0], by rw [hD, hD0]⟩

/-- Witness for C10: with `steps = 0` the record `[(0,0,0),(2,0,0)]` of radius 1
spherizes (no intermediate points) and keeps its boundary coordinate triples. -/
theorem spherize_preserves_end_coords_witness :
    ([(0:ℝ), 0, 0, 2, 0, 0] : List ℝ).take 3 = ([(0:ℝ), 0, 0, 2, 0, 0] : List ℝ).take 3 ∧
    ([(0:ℝ), 0, 0, 2, 0, 0] : List ℝ).drop (([(0:ℝ), 0, 0, 2, 0, 0] : List ℝ).length - 3) =
      ([(0:ℝ), 0, 0, 2, 0, 0] : List ℝ).drop (([(0:ℝ), 0, 0, 2, 0, 0] : List ℝ).length - 3) :=
  spherize_preserves_end_coords (SecCoords.mk [] [0, 0, 0, 2, 0, 0] [1, 1] false) 2 0
    (SecCoords.mk [] [0, 0, 0, 2, 0, 0] [0, 0] true) (by simp) (by simp)
    (by simp [spherize_coords, spherize_collapse, spherize_steps])

mutual
/-- Lemma: `collect_segments_recursive` only folds `dict_append` over the
state-independent pair sequence `segment_pairs`. -/
theorem collect_segments_char (md5hex : List Char → List Char) :
    ∀ (s : NSection) (act : ActDict),
      collect_segments_recursive md5hex s act =
        (segment_pairs md5hex s).foldl (fun a p => dict_append a p.1 p.2) act
  | .mk name n3d0 n3dA cell arcs L sample children, act => by
    simp only [collect_segments_recursive, segment_pairs, List.foldl_append, List.foldl_map]
    exact collect_segments_children_char md5hex children _

/-- List version of `collect_segments_char`. -/
theorem collect_segments_children_char (md5hex : List Char → List Char) :
    ∀ (cs : List NSection) (act : ActDict),
      collect_segments_children md5hex cs act =
        (segment_pairs_children md5hex cs).foldl (fun a p => dict_append a p.1 p.2) act
  | [], act => rfl
  | c :: cs, act => by
    simp only [collect_segments_children, segment_pairs_children, List.foldl_append]
    rw [collect_segments_char md5hex c act]
    exact collect_segments_children_char md5hex cs _
end

mutual
/-- Lemma: `collect_section` only folds `dict_append` over the state-independent pair
sequence `section_pairs`. -/
theorem collect_section_char (md5hex : List Char → List Char) :
    ∀ (s : NSection) (recursive : Bool) (act : ActDict),
      collect_section md5hex s recursive act =
        (section_pairs md5hex s recursive).foldl (fun a p => dict_append a p.1 p.2) act
  | .mk name n3d0 n3dA cell arcs L sample children, false, act => by
    simp only [collect_section, section_pairs, Bool.false_eq_true, if_false, List.foldl_cons,
      List.foldl_nil]
  | .mk name n3d0 n3dA cell arcs L sample children, true, act => by
    simp only [collect_section, section_pairs, if_true, List.foldl_cons]
    exact collect_section_children_char md5hex children _

/-- List version of `collect_section_char` (children are visited with the
`recursive` flag set). -/
theorem collect_section_children_char (md5hex : List Char → List Char) :
    ∀ (cs : List NSection) (act : ActDict),
      collect_section_children md5hex cs act =
        (section_pairs_children md5hex cs).foldl (fun a p => dict_append a p.1 p.2) act
  | [], act => rfl
  | c :: cs, act => by
    simp only [collect_section_children, section_pairs_children, List.foldl_append]
    rw [collect_section_char md5hex c true act]
    exact collect_section_children_char md5hex cs _
end

/-- The `Cell`-level fold over the root sections only folds `dict_append` over
the per-root (cell name, midpoint sample) pairs. -/
theorem collect_cells_char (md5hex : List Char → List Char) :
    ∀ (cs : List NSection) (act : ActDict),
      cs.foldl (fun act c => collect_section md5hex c false act) act =
        (cs.map fun c => (c.cellNameFn, c.sampleFn 0.5)).foldl
          (fun a p => dict_append a p.1 p.2) act := by
  intro cs
  induction cs with
  | nil => intro act; rfl
  | cons c t ih =>
    intro act
    simp only [List.foldl_cons, List.map_cons]
    rw [collect_section_char md5hex c false act]
    cases c with
    | mk name n3d0 n3dA cell arcs L sample children =>
      simp only [section_pairs, NSection.cellNameFn, NSection.sampleFn, Bool.false_eq_true,
        if_false, List.foldl_cons, List.foldl_nil]
      exact ih _

/-- One `collect_group` invocation appends the current time to the group's
time list and folds `dict_append` over the level-determined pair sequence
`callback_pairs`. -/
theorem collect_group_char (md5hex : List Char → List Char) (g : CGroup) (t : ℝ)
    (g' : CGroup) (h : collect_group md5hex g t = some g') :
    g'.collection_times = g.collection_times ++ [t] ∧
    g'.collected_activity =
      (callback_pairs md5hex g).foldl (fun a p => dict_append a p.1 p.2)
        g.collected_activity := by
  unfold collect_group at h
  unfold callback_pairs
  by_cases h1 : g.color_level = "Segment".toList
  · rw [if_pos h1] at h
    rw [if_pos h1]
    obtain rfl := (Option.some_inj.mp h).symm
    exact ⟨rfl, collect_segments_children_char md5hex g.cells g.collected_activity⟩
  · rw [if_neg h1] at h
    rw [if_neg h1]
    by_cases h2 : g.color_level = "Section".toList
    · rw [if_pos h2] at h
      rw [if_pos h2]
      obtain rfl := (Option.some_inj.mp h).symm
      exact ⟨rfl, collect_section_children_char md5hex g.cells g.collected_activity⟩
    · rw [if_neg h2] at h
      rw [if_neg h2]
      by_cases h3 : g.color_level = "Cell".toList
      · rw [if_pos h3] at h
        rw [if_pos h3]
        obtain rfl := (Option.some_inj.mp h).symm
        exact ⟨rfl, collect_cells_char md5hex g.cells g.collected_activity⟩
      · rw [if_neg h3] at h
        rw [if_neg h3]
        rw [Option.map_eq_some'] at h
        obtain ⟨v, hv, hg⟩ := h
        by_cases hL : ((g.cells.length : ℝ)) = 0
        · rw [show pydiv ((g.cells.map fun c => c.sampleFn 0.5).sum) ((g.cells.length : ℝ)) =
              none from if_pos hL] at hv
          exact absurd hv (by simp)
        · rw [show pydiv ((g.cells.map fun c => c.sampleFn 0.5).sum) ((g.cells.length : ℝ)) =
              some ((g.cells.map fun c => c.sampleFn 0.5).sum / (g.cells.length : ℝ)) from
              if_neg hL] at hv
          obtain rfl := Option.some_inj.mp hv
          obtain rfl := hg.symm
          exact ⟨rfl, rfl⟩

/-- Appending to an existing key of a duplicate-free dict keeps the key list;
the hit entry gets the value appended, every other entry is untouched. -/
theorem dict_append_hit :
    ∀ (d : ActDict) (k : List Char) (v : ℝ), (keys d).Nodup → k ∈ keys d →
      keys (dict_append d k v) = keys d ∧
      ∀ kv ∈ dict_append d k v,
        (kv.1 = k ∧ ∃ vs, (k, vs) ∈ d ∧ kv.2 = vs ++ [v]) ∨ (kv.1 ≠ k ∧ kv ∈ d) := by
  intro d
  induction d with
  | nil =>
    intro k v _ hk
    simp [keys] at hk
  | cons e rest ih =>
    intro k v hnd hk
    obtain ⟨k1, vs⟩ := e
    have hndc : (k1 :: keys rest).Nodup := by
      simp only [keys, List.map_cons] at hnd
      exact hnd
    have hnd1 : k1 ∉ keys rest := (List.nodup_cons.mp hndc).1
    have hnd2 : (keys rest).Nodup := (List.nodup_cons.mp hndc).2
    by_cases he : k1 = k
    · subst he
      rw [show dict_append ((k1, vs) :: rest) k1 v = (k1, vs ++ [v]) :: rest from by
        simp [dict_append]]
      refine ⟨by simp [keys], ?_⟩
      intro kv hkv
      rcases List.mem_cons.mp hkv with rfl | hmem
      · exact Or.inl ⟨rfl, vs, List.mem_cons_self _ _, rfl⟩
      · refine Or.inr ⟨?_, List.mem_cons_of_mem _ hmem⟩
        intro heq
        have hklm : kv.1 ∈ keys rest := List.mem_map_of_mem Prod.fst hmem
        rw [heq] at hklm
        exact hnd1 hklm
    · rw [show dict_append ((k1, vs) :: rest) k v = (k1, vs) :: dict_append rest k v from by
        simp [dict_append, he]]
      have hk' : k ∈ keys rest := by
        simp only [keys, List.map_cons] at hk
        rcases List.mem_cons.mp hk with h | h
        · exact absurd h.symm he
        · exact h
      obtain ⟨ih1, ih2⟩ := ih k v hnd2 hk'
      constructor
      · have ih1m : List.map Prod.fst (dict_append rest k v) = List.map Prod.fst rest := ih1
        simp only [keys, List.map_cons]
        rw [ih1m]
      · intro kv hkv
        rcases List.mem_cons.mp hkv with rfl | hmem
        · exact Or.inr ⟨by simpa using he, List.mem_cons_self _ _⟩
        · rcases ih2 kv hmem with ⟨ha, vs2, hmem2, hv⟩ | ⟨ha, hmem2⟩
          · exact Or.inl ⟨ha, vs2, List.mem_cons_of_mem _ hmem2, hv⟩
          · exact Or.inr ⟨ha, List.mem_cons_of_mem _ hmem2⟩

/-- Appending under a key absent from the dict creates a fresh singleton entry
at the end (`activity[name] = []` then `append`). -/
theorem dict_append_miss :
    ∀ (d : ActDict) (k : List Char) (v : ℝ), k ∉ keys d →
      dict_append d k v = d ++ [(k, [v])] := by
  intro d
  induction d with
  | nil => intro k v _; rfl
  | cons e rest ih =>
    intro k v hk
    obtain ⟨k1, vs⟩ := e
    have hk1 : ¬ k1 = k := fun he => hk (by
      simp only [keys, List.map_cons]
      rw [← he]
      exact List.mem_cons_self _ _)
    have hk' : k ∉ keys rest := fun hmem => hk (by
      simp only [keys, List.map_cons]
      exact List.mem_cons_of_mem _ hmem)
    rw [show dict_append ((k1, vs) :: rest) k v = (k1, vs) :: dict_append rest k v from by
      simp [dict_append, hk1]]
    rw [ih k v hk']
    rfl

/-- Folding `dict_append` over a duplicate-free pair sequence appends exactly
one value to every series named by the sequence (creating those that are
missing, which is only possible before the first collected sample, `n = 0`):
if the series named by the remaining sequence have `n` values and all others
already have `n + 1`, every series ends with `n + 1` values. -/
theorem foldl_dict_append_inv :
    ∀ (ps : List (List Char × ℝ)) (d : ActDict) (n : ℕ),
      (keys d).Nodup → (ps.map Prod.fst).Nodup →
      (∀ p ∈ ps, p.1 ∉ keys d → n = 0) →
      (∀ kv ∈ d, (kv.1 ∈ ps.map Prod.fst → kv.2.length = n) ∧
        (kv.1 ∉ ps.map Prod.fst → kv.2.length = n + 1)) →
      ∀ kv ∈ ps.foldl (fun a p => dict_append a p.1 p.2) d, kv.2.length = n + 1 := by
  intro ps
  induction ps with
  | nil =>
    intro d n _ _ _ hlen kv hkv
    exact (hlen kv hkv).2 (by simp)
  | cons p rest ih =>
    intro d n hnd hnods hnew hlen
    simp only [List.foldl_cons]
    have hnodsc : (p.1 :: rest.map Prod.fst).Nodup := by
      rw [List.map_cons] at hnods
      exact hnods
    have hnods1 : p.1 ∉ rest.map Prod.fst := (List.nodup_cons.mp hnodsc).1
    have hnods2 : (rest.map Prod.fst).Nodup := (List.nodup_cons.mp hnodsc).2
    by_cases hp : p.1 ∈ keys d
    · obtain ⟨hkeq, hmem⟩ := dict_append_hit d p.1 p.2 hnd hp
      apply ih (dict_append d p.1 p.2) n
      · rw [hkeq]
        exact hnd
      · exact hnods2
      · intro q hq hqa
        rw [hkeq] at hqa
        exact hnew q (List.mem_cons_of_mem _ hq) hqa
      · intro kv hkv
        rcases hmem kv hkv with ⟨ha, vs, hvs, hv⟩ | ⟨ha, hkvd⟩
        · have hvn : vs.length = n := (hlen (p.1, vs) hvs).1 (by
            simp only [List.map_cons]
            exact List.mem_cons_self _ _)
          constructor
          · intro hin2
            rw [ha] at hin2
            exact absurd hin2 hnods1
          · intro _
            rw [hv, List.length_append, hvn]
            rfl
        · have hold := hlen kv hkvd
          constructor
          · intro hin2
            exact hold.1 (by simp only [List.map_cons]; exact List.mem_cons_of_mem _ hin2)
          · intro hnin2
            apply hold.2
            intro hin3
            rw [List.map_cons] at hin3
            rcases List.mem_cons.mp hin3 with h | h
            · exact ha h
            · exact hnin2 h
    · have hn0 : n = 0 := hnew p (List.mem_cons_self p rest) hp
      rw [dict_append_miss d p.1 p.2 hp]
      apply ih (d ++ [(p.1, [p.2])]) n
      · simp only [keys, List.map_append, List.map_cons, List.map_nil]
        refine List.Nodup.append hnd (by simp) ?_
        intro a ha hb
        simp only [List.mem_singleton] at hb
        subst hb
        exact hp ha
      · exact hnods2
      · intro q hq hqa
        refine hnew q (List.mem_cons_of_mem _ hq) fun hqd => hqa ?_
        simp only [keys, List.map_append]
        exact List.mem_append_left _ hqd
      · intro kv hkv
        rcases List.mem_append.mp hkv with hkvd | hkvnew
        · have hold := hlen kv hkvd
          constructor
          · intro hin2
            exact hold.1 (by rw [List.map_cons]; exact List.mem_cons_of_mem _ hin2)
          · intro hnin2
            apply hold.2
            intro hin3
            rw [List.map_cons] at hin3
            rcases List.mem_cons.mp hin3 with h | h
            · exact absurd (by rw [← h]; exact List.mem_map_of_mem Prod.fst hkvd) hp
            · exact hnin2 h
        · simp only [List.mem_singleton] at hkvnew
          subst hkvnew
          refine ⟨fun hin2 => absurd hin2 hnods1, fun _ => ?_⟩
          rw [hn0]
          rfl

/-- C5 counterexample: at the `Cell` granularity the series name is
`str(section.cell())` (client.py line 786), which collides when several roots
report the same cell string - e.g. rootless plain sections all report `None`.
Starting from the cleared state (so every series is present from the first
callback, and the tree is fixed), one invocation of `collect_group` on two
such roots appends twice to the single series `"None"`: it ends with 2 values
while `collection_times` has 1, refuting the claimed invariant. -/
theorem collect_group_cell_collision_cex :
    ∃ g', collect_group (fun _ => [])
        (CGroup.mk ['g'] "Cell".toList
          [NSection.mk ['a'] 2 2 "None".toList [] 1 (fun _ => (0:ℝ)) [],
            NSection.mk ['b'] 2 2 "None".toList [] 1 (fun _ => (0:ℝ)) []]
          [] []) 0 = some g' ∧
      ∃ kv ∈ g'.collected_activity, kv.2.length ≠ g'.collection_times.length := by
  refine ⟨CGroup.mk ['g'] "Cell".toList
      [NSection.mk ['a'] 2 2 "None".toList [] 1 (fun _ => (0:ℝ)) [],
        NSection.mk ['b'] 2 2 "None".toList [] 1 (fun _ => (0:ℝ)) []]
      [(0:ℝ)] [("None".toList, [(0:ℝ), 0])], ?_, ?_⟩
  · rw [collect_group]
    dsimp only
    rw [if_neg (by decide), if_neg (by decide), if_pos (by decide)]
    rw [collect_cells_char]
    simp [dict_append, NSection.cellNameFn, NSection.sampleFn]
  · exact ⟨("None".toList, [(0:ℝ), 0]), List.mem_cons_self _ _, by simp⟩

/-- C5 corrected: immediately after any `collect_group` invocation that
returns (the `Group` level raises `ZeroDivisionError` on an empty group) - at
every granularity level - every named series of the group's
`collected_activity` has exactly as many values as the group's
`collection_times` list, PROVIDED the per-callback series names are pairwise
distinct (this is the hypothesis the counterexample shows cannot be dropped:
colliding `Cell`-level names append several values to one series); the
remaining hypotheses render the claim's stated assumptions: the tree is fixed
and each series is present from the first callback (every existing series is
one of the callbacks' names, and a name can be missing from the dict only
before the first sample was collected), and the invariant held beforehand. -/
theorem collect_group_invariant (md5hex : List Char → List Char) (g : CGroup) (t : ℝ)
    (g' : CGroup) (hsome : collect_group md5hex g t = some g')
    (hdnodup : (keys g.collected_activity).Nodup)
    (hpnodup : ((callback_pairs md5hex g).map Prod.fst).Nodup)
    (hpresent : ∀ kv ∈ g.collected_activity,
      kv.1 ∈ (callback_pairs md5hex g).map Prod.fst)
    (hfresh : ∀ p ∈ callback_pairs md5hex g,
      p.1 ∉ keys g.collected_activity → g.collection_times = [])
    (hinv : ∀ kv ∈ g.collected_activity, kv.2.length = g.collection_times.length) :
    ∀ kv ∈ g'.collected_activity, kv.2.length = g'.collection_times.length := by
  obtain ⟨htimes, hact⟩ := collect_group_char md5hex g t g' hsome
  intro kv hkv
  rw [hact] at hkv
  rw [htimes, List.length_append, List.length_singleton]
  refine foldl_dict_append_inv (callback_pairs md5hex g) g.collected_activity
    g.collection_times.length hdnodup hpnodup ?_ ?_ kv hkv
  · intro p hp hpk
    rw [hfresh p hp hpk]
    rfl
  · intro kv2 hkv2
    exact ⟨fun _ => hinv kv2 hkv2, fun hnot => absurd (hpresent kv2 hkv2) hnot⟩

/-- Witness for C5 (corrected form): a one-cell group at the `Cell` level with
one collected sample; the callback returns, and afterwards the single series
has 2 values and so does the time list. -/
theorem collect_group_invariant_witness :
    ((⟨['c'], [(0:ℝ), 0]⟩ : List Char × List ℝ)).2.length =
      (CGroup.mk ['g'] ("Cell".toList)
        [NSection.mk ['s'] 2 2 ['c'] [] 1 (fun _ => (0:ℝ)) []]
        [(0:ℝ), 1] [(['c'], [(0:ℝ), 0])]).collection_times.length := by
  have hpairs : callback_pairs (fun _ => [])
      (CGroup.mk ['g'] ("Cell".toList)
        [NSection.mk ['s'] 2 2 ['c'] [] 1 (fun _ => (0:ℝ)) []]
        [(0:ℝ)] [(['c'], [(0:ℝ)])]) = [(['c'], (0:ℝ))] := by
    rw [callback_pairs]
    dsimp only
    rw [if_neg (by decide), if_neg (by decide), if_pos (by decide)]
    rfl
  have hsome : collect_group (fun _ => [])
      (CGroup.mk ['g'] ("Cell".toList)
        [NSection.mk ['s'] 2 2 ['c'] [] 1 (fun _ => (0:ℝ)) []]
        [(0:ℝ)] [(['c'], [(0:ℝ)])]) 1 =
      some (CGroup.mk ['g'] ("Cell".toList)
        [NSection.mk ['s'] 2 2 ['c'] [] 1 (fun _ => (0:ℝ)) []]
        [(0:ℝ), 1] [(['c'], [(0:ℝ), 0])]) := by
    rw [collect_group]
    dsimp only
    rw [if_neg (by decide), if_neg (by decide), if_pos (by decide)]
    rw [collect_cells_char]
    simp [dict_append, NSection.cellNameFn, NSection.sampleFn]
  refine collect_group_invariant (fun _ => [])
    (CGroup.mk ['g'] ("Cell".toList)
      [NSection.mk ['s'] 2 2 ['c'] [] 1 (fun _ => (0:ℝ)) []]
      [(0:ℝ)] [(['c'], [(0:ℝ)])]) 1
    (CGroup.mk ['g'] ("Cell".toList)
      [NSection.mk ['s'] 2 2 ['c'] [] 1 (fun _ => (0:ℝ)) []]
      [(0:ℝ), 1] [(['c'], [(0:ℝ), 0])])
    hsome (by simp [keys]) (by rw [hpairs]; simp) ?_ ?_ ?_
    (['c'], [(0:ℝ), 0]) (List.mem_cons_self _ _)
  · intro kv hkv
    rw [hpairs]
    simp only [List.mem_singleton] at hkv
    subst hkv
    simp
  · intro p hp hnot
    rw [hpairs] at hp
    simp only [List.mem_singleton] at hp
    subst hp
    exact absurd (by simp [keys]) hnot
  · intro kv hkv
    simp only [List.mem_singleton] at hkv
    subst hkv
    rfl
